import Mathlib

/-!
Verification of `src/src/get_multisets_Cpp.cpp`.

The C++ function `get_multisets_Cpp(int n, int d, arma::uword N)` first checks
`n <= 0 || d < 0` and throws a `std::runtime_error` in that case.  Otherwise it
allocates an `N × d` matrix, initialises a working tuple to `d` ones, and `N`
times copies the working tuple into the next row and then advances it by the
in-place successor scan

    for (int i = d - 1; i >= 0; --i)
      if (current_multiset[i] < n) {
        current_multiset[i]++;
        if (i < d - 1) current_multiset.subvec(i + 1, d - 1).fill(current_multiset[i]);
        break;
      }

All matrix entries are small integers (stored as doubles, but every value is an
integer between 1 and n, far below any rounding threshold), so the embedding
uses `Int` entries, rows as `List Int`, and the matrix as a `List (List Int)`.
The thrown exception is modelled by `Except String`.
-/

/-- The inner right-to-left scan of `get_multisets_Cpp`, phrased recursively:
`succAux n t` returns `some t'` where `t'` is `t` with the rightmost entry
that is `< n` incremented and everything to its right overwritten with the
incremented value, or `none` when no entry is `< n` (the `for` loop falls
through without `break`). Trying the tail first is exactly the
right-to-left order of the C++ loop. -/
def succAux (n : Int) : List Int → Option (List Int)
  | [] => none
  | x :: xs =>
    match succAux n xs with
    | some xs' => some (x :: xs')
    | none =>
      if x < n then some ((x + 1) :: List.replicate xs.length (x + 1)) else none

/-- One full pass of the C++ `for` loop over the working tuple: if some entry
can be incremented the scan updates the tuple, otherwise the loop leaves the
tuple unchanged. -/
def nextMultiset (n : Int) (t : List Int) : List Int :=
  (succAux n t).getD t

/-- The `while (row_index < N)` loop of `get_multisets_Cpp`: starting from the
working tuple `t`, emit `N` rows, advancing the tuple by `nextMultiset` after
each row is stored. -/
def genRows (n : Int) (t : List Int) : Nat → List (List Int)
  | 0 => []
  | k + 1 => t :: genRows n (nextMultiset n t) k

/-- Embedding of the whole C++ function `get_multisets_Cpp`: the argument
check `n <= 0 || d < 0` throws, otherwise the row matrix is produced from the
all-ones working tuple `arma::rowvec current_multiset(d, arma::fill::ones)`. -/
def get_multisets_Cpp (n d : Int) (N : Nat) : Except String (List (List Int)) :=
  if n ≤ 0 ∨ d < 0 then
    Except.error "n must be a strictly positive integer and d must be a non-negative integer."
  else
    Except.ok (genRows n (List.replicate d.toNat 1) N)

/-- Specification-side enumeration (not from the source): the list of all
non-decreasing `d`-tuples with entries in `[lo, n]`, in strictly increasing
lexicographic order, grouped by their first entry.  The code's output is
compared against `lexMultisets n 1 d`. -/
def lexMultisets (n lo : Int) : Nat → List (List Int)
  | 0 => [[]]
  | d + 1 =>
    (List.range (n + 1 - lo).toNat).flatMap
      (fun j => (lexMultisets n (lo + (j : Int)) d).map (fun t => (lo + (j : Int)) :: t))

/-! ### Basic facts about the successor scan -/

theorem succAux_length (n : Int) :
    ∀ t t' : List Int, succAux n t = some t' → t'.length = t.length := by
  intro t
  induction t with
  | nil => intro t' h; simp [succAux] at h
  | cons x xs ih =>
    intro t' h
    simp only [succAux] at h
    cases hxs : succAux n xs with
    | some xs' =>
      rw [hxs] at h
      cases h
      simp [ih xs' hxs]
    | none =>
      rw [hxs] at h
      by_cases hx : x < n
      · rw [if_pos hx] at h
        cases h
        simp
      · rw [if_neg hx] at h
        cases h

theorem nextMultiset_length (n : Int) (t : List Int) :
    (nextMultiset n t).length = t.length := by
  unfold nextMultiset
  cases h : succAux n t with
  | none => rfl
  | some t' => simpa using succAux_length n t t' h

theorem succAux_eq_none_iff (n : Int) :
    ∀ t : List Int, succAux n t = none ↔ ∀ x ∈ t, n ≤ x := by
  intro t
  induction t with
  | nil => simp [succAux]
  | cons x xs ih =>
    simp only [succAux]
    cases hxs : succAux n xs with
    | some xs' =>
      simp only []
      constructor
      · intro h; cases h
      · intro h
        exact absurd (ih.mpr fun y hy => h y (List.mem_cons_of_mem x hy))
          (by simp [hxs])
    | none =>
      by_cases hx : x < n
      · simp only [if_pos hx]
        constructor
        · intro h; cases h
        · intro h
          exact absurd (h x (List.mem_cons_self x xs)) (not_le.mpr hx)
      · simp only [if_neg hx]
        constructor
        · intro _ y hy
          rcases List.mem_cons.mp hy with rfl | hy
          · exact not_lt.mp hx
          · exact (ih.mp hxs) y hy
        · intro _; trivial

theorem succAux_cons_some (n : Int) (v : Int) (xs xs' : List Int)
    (h : succAux n xs = some xs') :
    succAux n (v :: xs) = some (v :: xs') := by
  simp [succAux, h]

theorem nextMultiset_cons (n : Int) (v : Int) (xs : List Int)
    (h : succAux n xs ≠ none) :
    nextMultiset n (v :: xs) = v :: nextMultiset n xs := by
  cases hxs : succAux n xs with
  | none => exact absurd hxs h
  | some xs' =>
    rw [nextMultiset, succAux_cons_some n v xs xs' hxs, nextMultiset, hxs]
    rfl

theorem succAux_cons_ne_none_of_lt (n : Int) (v : Int) (xs : List Int) (hv : v < n) :
    succAux n (v :: xs) ≠ none := by
  simp only [succAux]
  cases succAux n xs with
  | some xs' => simp
  | none => simp [if_pos hv]

theorem succAux_cons_ne_none_of_tail (n : Int) (v : Int) (xs : List Int)
    (h : succAux n xs ≠ none) :
    succAux n (v :: xs) ≠ none := by
  cases hxs : succAux n xs with
  | none => exact absurd hxs h
  | some xs' => simp [succAux_cons_some n v xs xs' hxs]

theorem succAux_replicate_top (n : Int) (k : Nat) :
    succAux n (List.replicate k n) = none := by
  rw [succAux_eq_none_iff]
  intro x hx
  rw [List.eq_of_mem_replicate hx]

theorem nextMultiset_replicate_top (n : Int) (k : Nat) :
    nextMultiset n (List.replicate k n) = List.replicate k n := by
  rw [nextMultiset, succAux_replicate_top]
  rfl

theorem nextMultiset_cons_replicate (n v : Int) (k : Nat) (hv : v < n) :
    nextMultiset n (v :: List.replicate k n) = List.replicate (k + 1) (v + 1) := by
  rw [nextMultiset]
  simp only [succAux, succAux_replicate_top, if_pos hv]
  simp [List.replicate_succ]

/-- The scan finds the rightmost entry `< n`: if `t = u ++ x :: v` with `x < n`
and every entry of `v` at least `n`, the scan increments `x` and overwrites
`v` with copies of `x + 1`. -/
theorem succAux_split (n : Int) :
    ∀ (u : List Int) (x : Int) (v : List Int), x < n → (∀ y ∈ v, n ≤ y) →
      succAux n (u ++ x :: v) = some (u ++ (x + 1) :: List.replicate v.length (x + 1)) := by
  intro u
  induction u with
  | nil =>
    intro x v hx hv
    have hvnone : succAux n v = none := (succAux_eq_none_iff n v).mpr hv
    simp [succAux, hvnone, if_pos hx]
  | cons a u ih =>
    intro x v hx hv
    have := succAux_cons_some n a (u ++ x :: v) _ (ih x v hx hv)
    simpa using this

theorem succAux_lex (n : Int) :
    ∀ t t' : List Int, succAux n t = some t' → List.Lex (· < ·) t t' := by
  intro t
  induction t with
  | nil => intro t' h; simp [succAux] at h
  | cons x xs ih =>
    intro t' h
    simp only [succAux] at h
    cases hxs : succAux n xs with
    | some xs' =>
      rw [hxs] at h
      cases h
      exact List.Lex.cons (ih xs' hxs)
    | none =>
      rw [hxs] at h
      by_cases hx : x < n
      · rw [if_pos hx] at h
        cases h
        exact List.Lex.rel (by omega)
      · rw [if_neg hx] at h
        cases h

/-- A successful scan step preserves sortedness and the entry bounds:
entries stay at most `n` and keep any lower bound `lo` the tuple had. -/
theorem succAux_invariant (n : Int) :
    ∀ (t t' : List Int) (lo : Int), succAux n t = some t' →
      t.Pairwise (· ≤ ·) → (∀ x ∈ t, lo ≤ x ∧ x ≤ n) →
      t'.Pairwise (· ≤ ·) ∧ ∀ x ∈ t', lo ≤ x ∧ x ≤ n := by
  intro t
  induction t with
  | nil => intro t' lo h; simp [succAux] at h
  | cons x xs ih =>
    intro t' lo h hsort hbd
    have hx : lo ≤ x ∧ x ≤ n := hbd x (List.mem_cons_self x xs)
    have hxs_sort : xs.Pairwise (· ≤ ·) := (List.pairwise_cons.mp hsort).2
    have hhead : ∀ y ∈ xs, x ≤ y := (List.pairwise_cons.mp hsort).1
    simp only [succAux] at h
    cases hxs : succAux n xs with
    | some xs' =>
      rw [hxs] at h
      cases h
      have hxs_bd : ∀ y ∈ xs, x ≤ y ∧ y ≤ n := fun y hy => ⟨hhead y hy, (hbd y (List.mem_cons_of_mem x hy)).2⟩
      obtain ⟨hs', hb'⟩ := ih xs' x hxs hxs_sort hxs_bd
      constructor
      · exact List.pairwise_cons.mpr ⟨fun y hy => (hb' y hy).1, hs'⟩
      · intro y hy
        rcases List.mem_cons.mp hy with rfl | hy
        · exact hx
        · exact ⟨le_trans hx.1 (hb' y hy).1, (hb' y hy).2⟩
    | none =>
      rw [hxs] at h
      by_cases hlt : x < n
      · rw [if_pos hlt] at h
        cases h
        constructor
        · refine List.pairwise_cons.mpr ⟨fun y hy => ?_, ?_⟩
          · rw [List.eq_of_mem_replicate hy]
          · exact List.pairwise_replicate.mpr (Or.inr le_rfl)
        · intro y hy
          rcases List.mem_cons.mp hy with rfl | hy
          · exact ⟨by omega, by omega⟩
          · rw [List.eq_of_mem_replicate hy]
            exact ⟨by omega, by omega⟩
      · rw [if_neg hlt] at h
        cases h

/-! ### Facts about the generation loop -/

theorem genRows_length (n : Int) :
    ∀ (N : Nat) (t : List Int), (genRows n t N).length = N := by
  intro N
  induction N with
  | zero => intro t; rfl
  | succ k ih => intro t; simp [genRows, ih]

theorem genRows_append (n : Int) :
    ∀ (a b : Nat) (t : List Int),
      genRows n t (a + b) = genRows n t a ++ genRows n ((nextMultiset n)^[a] t) b := by
  intro a
  induction a with
  | zero => intro b t; simp [genRows]
  | succ k ih =>
    intro b t
    have : k + 1 + b = (k + b) + 1 := by omega
    rw [this]
    simp only [genRows, List.cons_append]
    rw [ih b (nextMultiset n t), Function.iterate_succ_apply]

theorem genRows_take (n : Int) (a b : Nat) (t : List Int) (hab : a ≤ b) :
    genRows n t a = (genRows n t b).take a := by
  have hb : b = a + (b - a) := by omega
  rw [hb, genRows_append, List.take_append_of_le_length (by simp [genRows_length]),
    List.take_of_length_le (by simp [genRows_length])]

theorem genRows_getLast (n : Int) :
    ∀ (k : Nat) (t : List Int),
      (genRows n t (k + 1)).getLast? = some ((nextMultiset n)^[k] t) := by
  intro k
  induction k with
  | zero => intro t; rfl
  | succ m ih =>
    intro t
    show (t :: genRows n (nextMultiset n t) (m + 1)).getLast? = _
    rw [show genRows n (nextMultiset n t) (m + 1)
        = nextMultiset n t :: genRows n (nextMultiset n (nextMultiset n t)) m from rfl]
    rw [List.getLast?_cons_cons]
    rw [show (nextMultiset n t :: genRows n (nextMultiset n (nextMultiset n t)) m)
        = genRows n (nextMultiset n t) (m + 1) from rfl]
    rw [ih (nextMultiset n t), Function.iterate_succ_apply]

/-- As long as the scan keeps succeeding on the tail, the head entry rides
along unchanged through iterated successor steps. -/
theorem iterate_nextMultiset_cons (n : Int) :
    ∀ (k : Nat) (v : Int) (xs : List Int),
      (∀ j, j < k → succAux n ((nextMultiset n)^[j] xs) ≠ none) →
      (nextMultiset n)^[k] (v :: xs) = v :: (nextMultiset n)^[k] xs := by
  intro k
  induction k with
  | zero => intro v xs _; rfl
  | succ m ih =>
    intro v xs h
    rw [Function.iterate_succ_apply, Function.iterate_succ_apply]
    rw [nextMultiset_cons n v xs (by simpa using h 0 (Nat.succ_pos m))]
    exact ih v (nextMultiset n xs) (fun j hj => by
      rw [← Function.iterate_succ_apply]
      exact h (j + 1) (by omega))

/-- While the scan keeps succeeding on the tail, the whole block of rows is
the tail's block with the head consed on. -/
theorem genRows_cons_map (n : Int) :
    ∀ (k : Nat) (v : Int) (xs : List Int),
      (∀ j, j + 1 < k → succAux n ((nextMultiset n)^[j] xs) ≠ none) →
      genRows n (v :: xs) k = (genRows n xs k).map (fun t => v :: t) := by
  intro k
  induction k with
  | zero => intro v xs _; rfl
  | succ m ih =>
    intro v xs h
    cases m with
    | zero => rfl
    | succ m' =>
      have h0 : succAux n xs ≠ none := by simpa using h 0 (by omega)
      show (v :: xs) :: genRows n (nextMultiset n (v :: xs)) (m' + 1)
          = List.map (fun t => v :: t) (xs :: genRows n (nextMultiset n xs) (m' + 1))
      rw [nextMultiset_cons n v xs h0, List.map_cons,
        ih v (nextMultiset n xs) (fun j hj => by
          rw [← Function.iterate_succ_apply]
          exact h (j + 1) (by omega))]

/-- Once the working tuple is all `n`'s the loop emits it forever. -/
theorem genRows_replicate_top (n : Int) :
    ∀ (N k : Nat), genRows n (List.replicate k n) N = List.replicate N (List.replicate k n) := by
  intro N
  induction N with
  | zero => intro k; rfl
  | succ m ih =>
    intro k
    simp only [genRows, nextMultiset_replicate_top, List.replicate_succ, ih]

/-- Every emitted row has the starting tuple's length, is non-decreasing and
has entries within the starting bounds. -/
theorem genRows_invariant (n : Int) :
    ∀ (N : Nat) (t : List Int), t.Pairwise (· ≤ ·) → (∀ x ∈ t, 1 ≤ x ∧ x ≤ n) →
      ∀ r ∈ genRows n t N,
        r.length = t.length ∧ r.Pairwise (· ≤ ·) ∧ ∀ x ∈ r, 1 ≤ x ∧ x ≤ n := by
  intro N
  induction N with
  | zero => intro t _ _ r hr; cases hr
  | succ m ih =>
    intro t hsort hbd r hr
    rcases List.mem_cons.mp hr with rfl | hr
    · exact ⟨rfl, hsort, hbd⟩
    · have hstep : (nextMultiset n t).Pairwise (· ≤ ·) ∧
          ∀ x ∈ nextMultiset n t, 1 ≤ x ∧ x ≤ n := by
        cases hnx : succAux n t with
        | none => rw [nextMultiset, hnx]; exact ⟨hsort, hbd⟩
        | some t' =>
          rw [nextMultiset, hnx]
          exact succAux_invariant n t t' 1 hnx hsort hbd
      obtain ⟨h1, h2, h3⟩ := ih (nextMultiset n t) hstep.1 hstep.2 r hr
      exact ⟨h1.trans (nextMultiset_length n t), h2, h3⟩

/-- Consecutive rows: each row is lexicographically below the next, except
that the all-`n` terminal tuple repeats itself. -/
theorem genRows_chain (n : Int) :
    ∀ (N : Nat) (t : List Int) (d0 : Nat), t.length = d0 → t.Pairwise (· ≤ ·) →
      (∀ x ∈ t, 1 ≤ x ∧ x ≤ n) →
      List.Chain' (fun a b => List.Lex (· < ·) a b ∨ (a = b ∧ a = List.replicate d0 n))
        (genRows n t N) := by
  intro N
  induction N with
  | zero => intro t d0 _ _ _; exact List.chain'_nil
  | succ m ih =>
    intro t d0 hlen hsort hbd
    have hstep : (nextMultiset n t).Pairwise (· ≤ ·) ∧
        ∀ x ∈ nextMultiset n t, 1 ≤ x ∧ x ≤ n := by
      cases hnx : succAux n t with
      | none => rw [nextMultiset, hnx]; exact ⟨hsort, hbd⟩
      | some t' => rw [nextMultiset, hnx]; exact succAux_invariant n t t' 1 hnx hsort hbd
    have htail := ih (nextMultiset n t) d0 (by rw [nextMultiset_length, hlen]) hstep.1 hstep.2
    cases m with
    | zero => exact List.chain'_singleton t
    | succ m' =>
      show List.Chain' _ (t :: nextMultiset n t :: genRows n (nextMultiset n (nextMultiset n t)) m')
      refine List.chain'_cons.mpr ⟨?_, htail⟩
      cases hnx : succAux n t with
      | some t' =>
        left
        rw [nextMultiset, hnx]
        exact succAux_lex n t t' hnx
      | none =>
        right
        have hall : ∀ x ∈ t, x = n := fun x hx =>
          le_antisymm (hbd x hx).2 ((succAux_eq_none_iff n t).mp hnx x hx)
        have hrep : t = List.replicate d0 n := by
          rw [← hlen]
          exact List.eq_replicate_of_mem hall
        rw [nextMultiset, hnx]
        exact ⟨rfl, hrep⟩

/-! ### Facts about the specification-side enumeration -/

theorem lexMultisets_zero (n lo : Int) : lexMultisets n lo 0 = [[]] := by
  simp [lexMultisets]

theorem lexMultisets_succ_def (n lo : Int) (d : Nat) :
    lexMultisets n lo (d + 1)
      = (List.range (n + 1 - lo).toNat).flatMap
          (fun j => (lexMultisets n (lo + (j : Int)) d).map (fun t => (lo + (j : Int)) :: t)) := by
  simp [lexMultisets]

theorem lexMultisets_top (n lo : Int) (d : Nat) (h : n < lo) :
    lexMultisets n lo (d + 1) = [] := by
  rw [lexMultisets_succ_def]
  have h0 : (n + 1 - lo).toNat = 0 := by omega
  rw [h0]
  rfl

/-- Grouping the enumeration by first entry: the tuples starting with `lo`,
followed by all tuples whose entries are at least `lo + 1`. -/
theorem lexMultisets_decompose (n lo : Int) (d : Nat) (h : lo ≤ n) :
    lexMultisets n lo (d + 1)
      = (lexMultisets n lo d).map (fun t => lo :: t) ++ lexMultisets n (lo + 1) (d + 1) := by
  rw [lexMultisets_succ_def, lexMultisets_succ_def]
  have hm : (n + 1 - lo).toNat = (n + 1 - (lo + 1)).toNat + 1 := by omega
  rw [hm, List.range_succ_eq_map, List.flatMap_cons]
  congr 1
  · simp
  · rw [List.flatMap_map]
    have hfun : (fun a : Nat =>
          (lexMultisets n (lo + ((a : Nat).succ : Int)) d).map
            (fun t => (lo + ((a : Nat).succ : Int)) :: t))
        = (fun j : Nat => (lexMultisets n (lo + 1 + (j : Int)) d).map
            (fun t => (lo + 1 + (j : Int)) :: t)) := by
      funext j
      have hc : lo + ((j : Nat).succ : Int) = lo + 1 + (j : Int) := by
        push_cast
        ring
      rw [hc]
    rw [hfun]

theorem length_lexMultisets (n : Int) :
    ∀ (d : Nat) (lo : Int), lo ≤ n + 1 →
      (lexMultisets n lo d).length = Nat.choose ((n + 1 - lo).toNat + d - 1) d := by
  intro d
  induction d with
  | zero =>
    intro lo _
    rw [lexMultisets_zero]
    simp
  | succ d ihd =>
    suffices h : ∀ (k : Nat) (lo : Int), lo ≤ n + 1 → (n + 1 - lo).toNat = k →
        (lexMultisets n lo (d + 1)).length = Nat.choose (k + d) (d + 1) by
      intro lo hlo
      rw [h (n + 1 - lo).toNat lo hlo rfl]
      congr 1
    intro k
    induction k with
    | zero =>
      intro lo hlo hk
      have hn : n < lo := by omega
      rw [lexMultisets_top n lo d hn]
      simp only [List.length_nil, Nat.zero_add]
      exact (Nat.choose_eq_zero_of_lt (by omega)).symm
    | succ k ihk =>
      intro lo hlo hk
      have hlon : lo ≤ n := by omega
      rw [lexMultisets_decompose n lo d hlon, List.length_append, List.length_map]
      rw [ihd lo (by omega), ihk (lo + 1) (by omega) (by omega)]
      have h1 : (n + 1 - lo).toNat + d - 1 = k + d := by omega
      rw [h1]
      have h2 : Nat.choose (k + 1 + d) (d + 1)
          = Nat.choose (k + d) d + Nat.choose (k + d) (d + 1) := by
        rw [show k + 1 + d = k + d + 1 from by omega]
        simpa [Nat.succ_eq_add_one] using Nat.choose_succ_succ (k + d) d
      omega

theorem lexMultisets_length_pos (n lo : Int) (d : Nat) (h : lo ≤ n) :
    0 < (lexMultisets n lo d).length := by
  rw [length_lexMultisets n d lo (by omega)]
  exact Nat.choose_pos (by omega)

theorem mem_lexMultisets_of_top (n lo : Int) (d : Nat) (h : n < lo) (t : List Int) :
    t ∈ lexMultisets n lo (d + 1) ↔
      t.length = d + 1 ∧ t.Pairwise (· ≤ ·) ∧ ∀ x ∈ t, lo ≤ x ∧ x ≤ n := by
  rw [lexMultisets_top n lo d h]
  simp only [List.not_mem_nil, false_iff]
  rintro ⟨hlen, _, hbd⟩
  cases t with
  | nil => simp at hlen
  | cons x xs =>
    have := hbd x (List.mem_cons_self x xs)
    omega

theorem mem_lexMultisets_step (n lo : Int) (d : Nat) (hlo : lo ≤ n)
    (ihd : ∀ t : List Int, t ∈ lexMultisets n lo d ↔
        t.length = d ∧ t.Pairwise (· ≤ ·) ∧ ∀ x ∈ t, lo ≤ x ∧ x ≤ n)
    (ihr : ∀ t : List Int, t ∈ lexMultisets n (lo + 1) (d + 1) ↔
        t.length = d + 1 ∧ t.Pairwise (· ≤ ·) ∧ ∀ x ∈ t, lo + 1 ≤ x ∧ x ≤ n)
    (t : List Int) :
    t ∈ lexMultisets n lo (d + 1) ↔
      t.length = d + 1 ∧ t.Pairwise (· ≤ ·) ∧ ∀ x ∈ t, lo ≤ x ∧ x ≤ n := by
  rw [lexMultisets_decompose n lo d hlo, List.mem_append, List.mem_map]
  constructor
  · rintro (⟨r, hr, rfl⟩ | hmem)
    · obtain ⟨hlen, hsort, hbd⟩ := (ihd r).mp hr
      refine ⟨by simp [hlen], ?_, ?_⟩
      · exact List.pairwise_cons.mpr ⟨fun y hy => (hbd y hy).1, hsort⟩
      · intro x hx
        rcases List.mem_cons.mp hx with rfl | hx
        · exact ⟨le_rfl, hlo⟩
        · exact (hbd x hx)
    · obtain ⟨hlen, hsort, hbd⟩ := (ihr t).mp hmem
      exact ⟨hlen, hsort, fun x hx => ⟨by have := (hbd x hx).1; omega, (hbd x hx).2⟩⟩
  · rintro ⟨hlen, hsort, hbd⟩
    cases t with
    | nil => simp at hlen
    | cons x xs =>
      have hx := hbd x (List.mem_cons_self x xs)
      have hhead : ∀ y ∈ xs, x ≤ y := (List.pairwise_cons.mp hsort).1
      rcases eq_or_lt_of_le hx.1 with hxlo | hxlo
      · left
        refine ⟨xs, (ihd xs).mpr ⟨by simpa using hlen, (List.pairwise_cons.mp hsort).2,
          fun y hy => (hbd y (List.mem_cons_of_mem x hy))⟩, by rw [hxlo]⟩
      · right
        refine (ihr (x :: xs)).mpr ⟨hlen, hsort, ?_⟩
        intro y hy
        rcases List.mem_cons.mp hy with rfl | hy
        · exact ⟨by omega, hx.2⟩
        · exact ⟨by have := hhead y hy; omega, (hbd y (List.mem_cons_of_mem x hy)).2⟩

theorem mem_lexMultisets (n : Int) :
    ∀ (d : Nat) (lo : Int) (t : List Int),
      t ∈ lexMultisets n lo d ↔
        t.length = d ∧ t.Pairwise (· ≤ ·) ∧ ∀ x ∈ t, lo ≤ x ∧ x ≤ n := by
  intro d
  induction d with
  | zero =>
    intro lo t
    rw [lexMultisets_zero]
    constructor
    · intro ht
      have : t = [] := by simpa using ht
      subst this
      simp
    · rintro ⟨hlen, -, -⟩
      have : t = [] := List.eq_nil_of_length_eq_zero hlen
      simp [this]
  | succ d ihd =>
    suffices h : ∀ (k : Nat) (lo : Int), (n - lo).toNat ≤ k → ∀ t : List Int,
        t ∈ lexMultisets n lo (d + 1) ↔
          t.length = d + 1 ∧ t.Pairwise (· ≤ ·) ∧ ∀ x ∈ t, lo ≤ x ∧ x ≤ n by
      intro lo t
      exact h (n - lo).toNat lo le_rfl t
    intro k
    induction k with
    | zero =>
      intro lo hk t
      rcases lt_or_le n lo with hn | hn
      · exact mem_lexMultisets_of_top n lo d hn t
      · have hlon : lo = n := by omega
        exact mem_lexMultisets_step n lo d hn (ihd lo)
          (fun s => by
            have : n < lo + 1 := by omega
            exact mem_lexMultisets_of_top n (lo + 1) d this s) t
    | succ k ihk =>
      intro lo hk t
      rcases lt_or_le n lo with hn | hn
      · exact mem_lexMultisets_of_top n lo d hn t
      · exact mem_lexMultisets_step n lo d hn (ihd lo)
          (ihk (lo + 1) (by omega)) t

theorem sorted_lexMultisets_step (n lo : Int) (d : Nat) (hlo : lo ≤ n)
    (ihd : (lexMultisets n lo d).Pairwise (List.Lex (· < ·)))
    (ihr : (lexMultisets n (lo + 1) (d + 1)).Pairwise (List.Lex (· < ·))) :
    (lexMultisets n lo (d + 1)).Pairwise (List.Lex (· < ·)) := by
  rw [lexMultisets_decompose n lo d hlo, List.pairwise_append]
  refine ⟨?_, ihr, ?_⟩
  · rw [List.pairwise_map]
    exact ihd.imp (fun h => List.Lex.cons h)
  · intro a ha b hb
    obtain ⟨r, hr, rfl⟩ := List.mem_map.mp ha
    obtain ⟨hblen, -, hbbd⟩ := (mem_lexMultisets n (d + 1) (lo + 1) b).mp hb
    cases b with
    | nil => simp at hblen
    | cons w s =>
      have hw : lo + 1 ≤ w := (hbbd w (List.mem_cons_self w s)).1
      exact List.Lex.rel (by omega)

/-- The enumeration is strictly increasing in lexicographic order. -/
theorem sorted_lexMultisets (n : Int) :
    ∀ (d : Nat) (lo : Int), (lexMultisets n lo d).Pairwise (List.Lex (· < ·)) := by
  intro d
  induction d with
  | zero => intro lo; rw [lexMultisets_zero]; simp
  | succ d ihd =>
    suffices h : ∀ (k : Nat) (lo : Int), (n - lo).toNat ≤ k →
        (lexMultisets n lo (d + 1)).Pairwise (List.Lex (· < ·)) by
      intro lo
      exact h (n - lo).toNat lo le_rfl
    intro k
    induction k with
    | zero =>
      intro lo hk
      rcases lt_or_le n lo with hn | hn
      · rw [lexMultisets_top n lo d hn]
        exact List.Pairwise.nil
      · exact sorted_lexMultisets_step n lo d hn (ihd lo)
          (by rw [lexMultisets_top n (lo + 1) d (by omega)]; exact List.Pairwise.nil)
    | succ k ihk =>
      intro lo hk
      rcases lt_or_le n lo with hn | hn
      · rw [lexMultisets_top n lo d hn]
        exact List.Pairwise.nil
      · exact sorted_lexMultisets_step n lo d hn (ihd lo) (ihk (lo + 1) (by omega))

/-! ### The generation loop produces exactly the enumeration -/

/-- Invariant tying one "block" of the generation to the enumeration: started
on the constant-`lo` tuple, the loop reproduces `lexMultisets n lo d`, its
last emitted row is the all-`n` tuple, and the scan succeeds at every
intermediate step. -/
def GenBlock (n : Int) (d : Nat) (lo : Int) : Prop :=
  genRows n (List.replicate d lo) (lexMultisets n lo d).length = lexMultisets n lo d
  ∧ (nextMultiset n)^[(lexMultisets n lo d).length - 1] (List.replicate d lo)
      = List.replicate d n
  ∧ ∀ j, j + 1 < (lexMultisets n lo d).length →
      succAux n ((nextMultiset n)^[j] (List.replicate d lo)) ≠ none

theorem genBlock_step (n lo : Int) (d : Nat) (hlo : lo ≤ n)
    (ihd : GenBlock n d lo)
    (ihr : lo < n → GenBlock n (d + 1) (lo + 1)) :
    GenBlock n (d + 1) lo := by
  obtain ⟨ha, hb, hc⟩ := ihd
  have hl1 : 1 ≤ (lexMultisets n lo d).length := lexMultisets_length_pos n lo d hlo
  have hrep : List.replicate (d + 1) lo = lo :: List.replicate d lo := List.replicate_succ lo d
  have hlift_rows : genRows n (lo :: List.replicate d lo) (lexMultisets n lo d).length
      = (lexMultisets n lo d).map (fun t => lo :: t) := by
    rw [genRows_cons_map n (lexMultisets n lo d).length lo (List.replicate d lo)
      (fun j hj => hc j hj), ha]
  have hlift_state : (nextMultiset n)^[(lexMultisets n lo d).length - 1]
      (lo :: List.replicate d lo) = lo :: List.replicate d n := by
    rw [iterate_nextMultiset_cons n ((lexMultisets n lo d).length - 1) lo
      (List.replicate d lo) (fun j hj => hc j (by omega)), hb]
  have hstate : (nextMultiset n)^[(lexMultisets n lo d).length]
      (lo :: List.replicate d lo) = nextMultiset n (lo :: List.replicate d n) := by
    rw [show (lexMultisets n lo d).length = ((lexMultisets n lo d).length - 1) + 1 by omega,
      Function.iterate_succ_apply', hlift_state]
  have hlift_any : ∀ j, j < (lexMultisets n lo d).length →
      (nextMultiset n)^[j] (lo :: List.replicate d lo)
        = lo :: (nextMultiset n)^[j] (List.replicate d lo) := by
    intro j hj
    exact iterate_nextMultiset_cons n j lo (List.replicate d lo)
      (fun i hi => hc i (by omega))
  rcases eq_or_lt_of_le hlo with htop | hlt
  · -- lo = n: the rest of the enumeration is empty
    subst htop
    have hR : lexMultisets lo (lo + 1) (d + 1) = [] := lexMultisets_top lo (lo + 1) d (by omega)
    have hdec : lexMultisets lo lo (d + 1) = (lexMultisets lo lo d).map (fun t => lo :: t) := by
      rw [lexMultisets_decompose lo lo d le_rfl, hR, List.append_nil]
    refine ⟨?_, ?_, ?_⟩
    · rw [hrep, hdec, List.length_map, hlift_rows]
    · rw [hrep, hdec, List.length_map, hlift_state, ← List.replicate_succ]
    · intro j hj
      rw [hdec, List.length_map] at hj
      rw [hrep, hlift_any j (by omega)]
      exact succAux_cons_ne_none_of_tail lo lo _ (hc j hj)
  · -- lo < n: recurse on the enumeration starting at lo + 1
    obtain ⟨ha1, hb1, hc1⟩ := ihr hlt
    have hL1 : 1 ≤ (lexMultisets n (lo + 1) (d + 1)).length :=
      lexMultisets_length_pos n (lo + 1) (d + 1) (by omega)
    have hstate' : (nextMultiset n)^[(lexMultisets n lo d).length]
        (lo :: List.replicate d lo) = List.replicate (d + 1) (lo + 1) := by
      rw [hstate, nextMultiset_cons_replicate n lo d hlt]
    have hdec := lexMultisets_decompose n lo d hlo
    have hlen : (lexMultisets n lo (d + 1)).length
        = (lexMultisets n lo d).length + (lexMultisets n (lo + 1) (d + 1)).length := by
      rw [hdec, List.length_append, List.length_map]
    refine ⟨?_, ?_, ?_⟩
    · rw [hrep, hlen, genRows_append, hlift_rows, hstate', ha1, hdec]
    · rw [hrep, hlen,
        show (lexMultisets n lo d).length + (lexMultisets n (lo + 1) (d + 1)).length - 1
          = ((lexMultisets n (lo + 1) (d + 1)).length - 1) + (lexMultisets n lo d).length
          by omega,
        Function.iterate_add_apply, hstate', hb1]
    · intro j hj
      rw [hlen] at hj
      rw [hrep]
      by_cases hjl : j < (lexMultisets n lo d).length
      · rw [hlift_any j hjl]
        exact succAux_cons_ne_none_of_lt n lo _ hlt
      · rw [show j = (j - (lexMultisets n lo d).length) + (lexMultisets n lo d).length
            by omega,
          Function.iterate_add_apply, hstate']
        exact hc1 (j - (lexMultisets n lo d).length) (by omega)

theorem genBlock (n : Int) :
    ∀ (d : Nat) (lo : Int), lo ≤ n → GenBlock n d lo := by
  intro d
  induction d with
  | zero =>
    intro lo _
    refine ⟨?_, ?_, ?_⟩
    · rw [lexMultisets_zero]
      rfl
    · rw [lexMultisets_zero]
      rfl
    · intro j hj
      rw [lexMultisets_zero] at hj
      simp at hj
  | succ d ihd =>
    suffices h : ∀ (k : Nat) (lo : Int), lo ≤ n → (n - lo).toNat ≤ k →
        GenBlock n (d + 1) lo by
      intro lo hlo
      exact h (n - lo).toNat lo hlo le_rfl
    intro k
    induction k with
    | zero =>
      intro lo hlo hk
      exact genBlock_step n lo d hlo (ihd lo hlo) (fun hlt => absurd hlt (by omega))
    | succ k ihk =>
      intro lo hlo hk
      exact genBlock_step n lo d hlo (ihd lo hlo)
        (fun hlt => ihk (lo + 1) (by omega) (by omega))

theorem get_multisets_Cpp_ok (n d : Int) (N : Nat) (hn : 1 ≤ n) (hd : 0 ≤ d) :
    get_multisets_Cpp n d N = Except.ok (genRows n (List.replicate d.toNat 1) N) := by
  rw [get_multisets_Cpp, if_neg (by omega)]

theorem length_lexMultisets_start (n d : Int) (hn : 1 ≤ n) (hd : 0 ≤ d) :
    (lexMultisets n 1 d.toNat).length = Nat.choose (n + d - 1).toNat d.toNat := by
  rw [length_lexMultisets n d.toNat 1 (by omega)]
  congr 1
  omega

theorem genRows_head (n : Int) (t : List Int) (N : Nat) (h : 0 < N) :
    (genRows n t N).head? = some t := by
  cases N with
  | zero => omega
  | succ k => rfl

/-! ### Claim theorems -/

/-- C1: for every n ≥ 1, d ≥ 0 and count = C(n+d-1, d), `get_multisets_Cpp`
returns a table with exactly `count` rows and `d` columns whose rows are
precisely all non-decreasing d-tuples over [1, n], in strictly increasing
lexicographic order, with first row all 1's and (for d > 0) last row all
n's. -/
theorem get_multisets_Cpp_enumerates_all (n d : Int) (N : Nat) (rows : List (List Int))
    (hn : 1 ≤ n) (hd : 0 ≤ d) (hc : N = Nat.choose (n + d - 1).toNat d.toNat)
    (hok : get_multisets_Cpp n d N = Except.ok rows) :
    rows.length = N
    ∧ (∀ r ∈ rows, r.length = d.toNat)
    ∧ (∀ t : List Int, t ∈ rows ↔
        t.length = d.toNat ∧ t.Pairwise (· ≤ ·) ∧ ∀ x ∈ t, 1 ≤ x ∧ x ≤ n)
    ∧ rows.Pairwise (List.Lex (· < ·))
    ∧ rows.head? = some (List.replicate d.toNat 1)
    ∧ (0 < d → rows.getLast? = some (List.replicate d.toNat n)) := by
  rw [get_multisets_Cpp_ok n d N hn hd] at hok
  injection hok with hok
  have hlen : N = (lexMultisets n 1 d.toNat).length := by
    rw [hc, ← length_lexMultisets_start n d hn hd]
  have hNpos : 0 < N := by
    rw [hlen]
    exact lexMultisets_length_pos n 1 d.toNat hn
  have hgen : genRows n (List.replicate d.toNat 1) N = lexMultisets n 1 d.toNat := by
    rw [hlen]
    exact (genBlock n d.toNat 1 hn).1
  have hrows : rows = lexMultisets n 1 d.toNat := by
    rw [← hok, hgen]
  subst hrows
  refine ⟨hlen.symm, ?_, ?_, sorted_lexMultisets n d.toNat 1, ?_, ?_⟩
  · exact fun r hr => ((mem_lexMultisets n d.toNat 1 r).mp hr).1
  · exact fun t => mem_lexMultisets n d.toNat 1 t
  · rw [← hgen]
    exact genRows_head n (List.replicate d.toNat 1) N hNpos
  · intro _
    rw [← hgen, show N = (N - 1) + 1 by omega, genRows_getLast]
    have hb := (genBlock n d.toNat 1 hn).2.1
    rw [← hlen] at hb
    rw [hb]

/-- C1 witness: the n = 3, d = 2, count = 6 instance from the specification. -/
theorem get_multisets_Cpp_enumerates_all_witness :
    get_multisets_Cpp 3 2 6 = Except.ok [[1, 1], [1, 2], [1, 3], [2, 2], [2, 3], [3, 3]]
    ∧ ([[1, 1], [1, 2], [1, 3], [2, 2], [2, 3], [3, 3]] : List (List Int)).length = 6 :=
  ⟨rfl, (get_multisets_Cpp_enumerates_all 3 2 6
    [[1, 1], [1, 2], [1, 3], [2, 2], [2, 3], [3, 3]]
    (by decide) (by decide) (by decide) rfl).1⟩

/-- C2: one iteration of the successor computation finds the rightmost
position whose value is < n (here: the decomposition `t = u ++ x :: v` with
every entry of `v` not below `n`), increments it, and overwrites everything
to its right with the new value; if no entry is < n the tuple is left
unchanged. -/
theorem get_multisets_Cpp_successor_step (n : Int) (d : Nat) (t : List Int)
    (hn : 1 ≤ n) (hd : 1 ≤ d) (hlen : t.length = d)
    (hsort : t.Pairwise (· ≤ ·)) (hbd : ∀ x ∈ t, 1 ≤ x ∧ x ≤ n) :
    (∀ (u : List Int) (x : Int) (v : List Int),
        t = u ++ x :: v → x < n → (∀ y ∈ v, ¬ y < n) →
        nextMultiset n t = u ++ (x + 1) :: List.replicate v.length (x + 1))
    ∧ ((∀ x ∈ t, ¬ x < n) → nextMultiset n t = t) := by
  constructor
  · rintro u x v rfl hx hv
    rw [nextMultiset, succAux_split n u x v hx (fun y hy => not_lt.mp (hv y hy))]
    rfl
  · intro h
    rw [nextMultiset, (succAux_eq_none_iff n t).mpr (fun x hx => not_lt.mp (h x hx))]
    rfl

/-- C2 witness: at n = 3 the successor of [1, 2] is [1, 3], and [3, 3] is a
fixed point. -/
theorem get_multisets_Cpp_successor_step_witness :
    nextMultiset 3 [1, 2] = [1, 3] ∧ nextMultiset 3 [3, 3] = [3, 3] := by
  constructor
  · have h := (get_multisets_Cpp_successor_step 3 2 [1, 2] (by decide) (by decide) rfl
      (by decide) (by decide)).1 [1] 2 [] rfl (by decide) (by decide)
    simpa using h
  · exact (get_multisets_Cpp_successor_step 3 2 [3, 3] (by decide) (by decide) rfl
      (by decide) (by decide)).2 (by decide)

/-- C6: the call fails exactly when n ≤ 0 or d < 0 (with the single error
message and no table), and for n ≥ 1, d ≥ 0 it succeeds whatever the count
is. -/
theorem get_multisets_Cpp_error_iff (n d : Int) (N : Nat) :
    (∃ e, get_multisets_Cpp n d N = Except.error e) ↔ n ≤ 0 ∨ d < 0 := by
  constructor
  · intro ⟨e, he⟩
    by_contra hcon
    rw [get_multisets_Cpp, if_neg hcon] at he
    cases he
  · intro h
    exact ⟨_, by rw [get_multisets_Cpp, if_pos h]⟩

/-- C9: the embedding of `get_multisets_Cpp` is a pure function, hence two
calls with identical arguments yield identical results. -/
theorem get_multisets_Cpp_deterministic (n d : Int) (N : Nat) :
    get_multisets_Cpp n d N = get_multisets_Cpp n d N := rfl

/-- C10: for valid arguments the generation loop runs exactly `count` times
and the returned table has exactly `count` rows, for every `count`. -/
theorem get_multisets_Cpp_row_count (n d : Int) (N : Nat) (rows : List (List Int))
    (hn : 1 ≤ n) (hd : 0 ≤ d) (hok : get_multisets_Cpp n d N = Except.ok rows) :
    rows.length = N := by
  rw [get_multisets_Cpp_ok n d N hn hd] at hok
  injection hok with hok
  rw [← hok, genRows_length]

/-- C10 witness: the n = 2, d = 3, count = 4 instance from the
specification. -/
theorem get_multisets_Cpp_row_count_witness :
    get_multisets_Cpp 2 3 4 = Except.ok [[1, 1, 1], [1, 1, 2], [1, 2, 2], [2, 2, 2]]
    ∧ ([[1, 1, 1], [1, 1, 2], [1, 2, 2], [2, 2, 2]] : List (List Int)).length = 4 :=
  ⟨rfl, get_multisets_Cpp_row_count 2 3 4
    [[1, 1, 1], [1, 1, 2], [1, 2, 2], [2, 2, 2]] (by decide) (by decide) rfl⟩

/-- C7: every row of the returned table is non-decreasing with entries in
[1, n], for every count — including counts above the true multiset count. -/
theorem get_multisets_Cpp_rows_valid (n d : Int) (N : Nat) (rows : List (List Int))
    (hn : 1 ≤ n) (hd : 0 ≤ d) (hok : get_multisets_Cpp n d N = Except.ok rows) :
    ∀ r ∈ rows, r.length = d.toNat ∧ r.Pairwise (· ≤ ·) ∧ ∀ x ∈ r, 1 ≤ x ∧ x ≤ n := by
  rw [get_multisets_Cpp_ok n d N hn hd] at hok
  injection hok with hok
  rw [← hok]
  intro r hr
  have hsort : (List.replicate d.toNat (1 : Int)).Pairwise (· ≤ ·) :=
    List.pairwise_replicate.mpr (Or.inr le_rfl)
  have hbd : ∀ x ∈ List.replicate d.toNat (1 : Int), 1 ≤ x ∧ x ≤ n := by
    intro x hx
    rw [List.eq_of_mem_replicate hx]
    exact ⟨le_rfl, hn⟩
  obtain ⟨h1, h2, h3⟩ := genRows_invariant n N (List.replicate d.toNat 1) hsort hbd r hr
  exact ⟨by rw [h1, List.length_replicate], h2, h3⟩

/-- C7 witness: n = 1, d = 5, count = 3 — an oversized count; the repeated
row [1,1,1,1,1] is still sorted and within bounds. -/
theorem get_multisets_Cpp_rows_valid_witness :
    get_multisets_Cpp 1 5 3
      = Except.ok [[1, 1, 1, 1, 1], [1, 1, 1, 1, 1], [1, 1, 1, 1, 1]]
    ∧ ([1, 1, 1, 1, 1] : List Int).Pairwise (· ≤ ·) :=
  ⟨rfl, (get_multisets_Cpp_rows_valid 1 5 3
    [[1, 1, 1, 1, 1], [1, 1, 1, 1, 1], [1, 1, 1, 1, 1]] (by decide) (by decide) rfl
    [1, 1, 1, 1, 1] (by decide)).2.1⟩

/-- C8: consecutive rows are weakly increasing in lexicographic order, with
equality only at the all-n terminal tuple — unconditionally in the count. -/
theorem get_multisets_Cpp_weak_monotone (n d : Int) (N : Nat) (rows : List (List Int))
    (hn : 1 ≤ n) (hd : 1 ≤ d) (hok : get_multisets_Cpp n d N = Except.ok rows) :
    rows.Chain' (fun a b =>
      List.Lex (· < ·) a b ∨ (a = b ∧ a = List.replicate d.toNat n)) := by
  rw [get_multisets_Cpp_ok n d N hn (by omega)] at hok
  injection hok with hok
  rw [← hok]
  have hsort : (List.replicate d.toNat (1 : Int)).Pairwise (· ≤ ·) :=
    List.pairwise_replicate.mpr (Or.inr le_rfl)
  have hbd : ∀ x ∈ List.replicate d.toNat (1 : Int), 1 ≤ x ∧ x ≤ n := by
    intro x hx
    rw [List.eq_of_mem_replicate hx]
    exact ⟨le_rfl, hn⟩
  exact genRows_chain n N (List.replicate d.toNat 1) d.toNat
    (List.length_replicate d.toNat 1) hsort hbd

/-- C8 witness: n = 1, d = 1, count = 3 — the terminal tuple [1] repeats and
each consecutive pair satisfies the weak-monotonicity relation. -/
theorem get_multisets_Cpp_weak_monotone_witness :
    get_multisets_Cpp 1 1 3 = Except.ok [[1], [1], [1]]
    ∧ ([[1], [1], [1]] : List (List Int)).Chain' (fun a b =>
        List.Lex (· < ·) a b ∨ (a = b ∧ a = List.replicate (1 : Int).toNat 1)) :=
  ⟨rfl, get_multisets_Cpp_weak_monotone 1 1 3 [[1], [1], [1]]
    (by decide) (by decide) rfl⟩

/-- C5: when count is at most the true count C(n+d-1, d), the table is
exactly the count-prefix of the full lexicographic enumeration. -/
theorem get_multisets_Cpp_undersized (n d : Int) (N : Nat)
    (hn : 1 ≤ n) (hd : 0 ≤ d)
    (hsmall : N ≤ Nat.choose (n + d - 1).toNat d.toNat) :
    get_multisets_Cpp n d N = Except.ok ((lexMultisets n 1 d.toNat).take N) := by
  rw [get_multisets_Cpp_ok n d N hn hd]
  congr 1
  rw [genRows_take n N (lexMultisets n 1 d.toNat).length (List.replicate d.toNat 1)
    (by rw [length_lexMultisets_start n d hn hd]; exact hsmall)]
  rw [(genBlock n d.toNat 1 hn).1]

/-- C5 witness: n = 3, d = 2, count = 3 gives the first three rows, and
count = 0 gives the empty table. -/
theorem get_multisets_Cpp_undersized_witness :
    get_multisets_Cpp 3 2 3 = Except.ok ((lexMultisets 3 1 (2 : Int).toNat).take 3)
    ∧ (lexMultisets 3 1 (2 : Int).toNat).take 3 = [[1, 1], [1, 2], [1, 3]]
    ∧ get_multisets_Cpp 3 2 0 = Except.ok [] :=
  ⟨get_multisets_Cpp_undersized 3 2 3 (by decide) (by decide) (by decide), rfl, rfl⟩

/-- C4: when count is at least the true count C(n+d-1, d), the call still
succeeds; the generator walks the whole enumeration, reaches the terminal
all-n tuple and emits it verbatim for every remaining row. -/
theorem get_multisets_Cpp_oversized (n d : Int) (N : Nat)
    (hn : 1 ≤ n) (hd : 0 ≤ d)
    (hbig : Nat.choose (n + d - 1).toNat d.toNat ≤ N) :
    get_multisets_Cpp n d N
      = Except.ok (lexMultisets n 1 d.toNat
          ++ List.replicate (N - Nat.choose (n + d - 1).toNat d.toNat)
              (List.replicate d.toNat n)) := by
  have hlen : (lexMultisets n 1 d.toNat).length = Nat.choose (n + d - 1).toNat d.toNat :=
    length_lexMultisets_start n d hn hd
  obtain ⟨m, hm⟩ : ∃ m, N = (lexMultisets n 1 d.toNat).length + m :=
    ⟨N - Nat.choose (n + d - 1).toNat d.toNat, by omega⟩
  subst hm
  rw [get_multisets_Cpp_ok n d _ hn hd]
  congr 1
  have hm' : (lexMultisets n 1 d.toNat).length + m - Nat.choose (n + d - 1).toNat d.toNat
      = m := by omega
  rw [hm']
  have hterm : (nextMultiset n)^[(lexMultisets n 1 d.toNat).length]
      (List.replicate d.toNat 1) = List.replicate d.toNat n := by
    have hp := lexMultisets_length_pos n 1 d.toNat hn
    rw [show (lexMultisets n 1 d.toNat).length
        = ((lexMultisets n 1 d.toNat).length - 1) + 1 by omega,
      Function.iterate_succ_apply', (genBlock n d.toNat 1 hn).2.1,
      nextMultiset_replicate_top]
  rw [genRows_append, hterm, genRows_replicate_top, (genBlock n d.toNat 1 hn).1]

/-- C4 witness: n = 3, d = 2, count = 8 — two rows beyond the true count 6,
both equal to the terminal tuple [3, 3]. -/
theorem get_multisets_Cpp_oversized_witness :
    get_multisets_Cpp 3 2 8
      = Except.ok [[1, 1], [1, 2], [1, 3], [2, 2], [2, 3], [3, 3], [3, 3], [3, 3]] :=
  (get_multisets_Cpp_oversized 3 2 8 (by decide) (by decide) (by decide)).trans (by rfl)

/-- C3 counterexample: for count above the true count the claim fails as
stated — with n = 1, d = 1, count = 2 the call succeeds with two identical
rows, which are neither strictly increasing nor pairwise distinct. -/
theorem get_multisets_Cpp_strict_rows_cex :
    get_multisets_Cpp 1 1 2 = Except.ok [[1], [1]]
    ∧ ¬ ([[1], [1]] : List (List Int)).Pairwise (List.Lex (· < ·))
    ∧ ¬ ([[1], [1]] : List (List Int)).Nodup :=
  ⟨rfl, by decide, by decide⟩

/-- C3 amended: provided count does not exceed the true count C(n+d-1, d),
the rows of the returned table are strictly increasing in lexicographic
order and pairwise distinct. -/
theorem get_multisets_Cpp_strict_rows_of_le (n d : Int) (N : Nat) (rows : List (List Int))
    (hn : 1 ≤ n) (hd : 0 ≤ d)
    (hsmall : N ≤ Nat.choose (n + d - 1).toNat d.toNat)
    (hok : get_multisets_Cpp n d N = Except.ok rows) :
    rows.Pairwise (List.Lex (· < ·)) ∧ rows.Nodup := by
  rw [get_multisets_Cpp_undersized n d N hn hd hsmall] at hok
  injection hok with hok
  have hsort : rows.Pairwise (List.Lex (· < ·)) := by
    rw [← hok]
    exact (sorted_lexMultisets n d.toNat 1).sublist (List.take_sublist N _)
  exact ⟨hsort, hsort.imp (fun hl heq => absurd (heq ▸ hl)
    (irrefl_of (List.Lex (· < ·)) _))⟩

/-- C3 amended witness: n = 3, d = 2, count = 6. -/
theorem get_multisets_Cpp_strict_rows_of_le_witness :
    get_multisets_Cpp 3 2 6 = Except.ok [[1, 1], [1, 2], [1, 3], [2, 2], [2, 3], [3, 3]]
    ∧ ([[1, 1], [1, 2], [1, 3], [2, 2], [2, 3], [3, 3]] : List (List Int)).Nodup :=
  ⟨rfl, (get_multisets_Cpp_strict_rows_of_le 3 2 6
    [[1, 1], [1, 2], [1, 3], [2, 2], [2, 3], [3, 3]]
    (by decide) (by decide) (by decide) rfl).2⟩
